import Mathlib

/-!
# Verification of the interval remapping engine (AoC 2023 day 5)

Shallow embedding of `src/2023/day-05/src/part2.rs` (range-based pipeline)
and `src/2023/day-05/src/part1.rs` (scalar variant), with proofs of the
spec's testable properties.

`u32` values are modelled as `Nat`; the Rust arithmetic agrees with the
unbounded model on all inputs whose endpoint sums do not overflow, and the
wrap-around behaviour is modelled separately (`overlaps32`, `intersection32`).
-/

namespace Day5

/-- Model of `part2.rs` `struct Range { from: u32, length: u32 }`.
The Rust field `from` is a Lean keyword and is called `start` here. -/
structure Range where
  start : Nat
  length : Nat
deriving DecidableEq, Repr

instance : Inhabited Range := ⟨⟨0, 0⟩⟩

/-- Model of `Range::overlaps`: note the source uses inclusive comparisons
(`self.from <= other.from + other.length && other.from <= self.from + self.length`). -/
def Range.overlaps (a b : Range) : Bool :=
  decide (a.start ≤ b.start + b.length) && decide (b.start ≤ a.start + a.length)

/-- Model of `Range::intersection`: when `overlaps`, the range from
`max` of the starts to `min` of the ends. -/
def Range.intersection (a b : Range) : Option Range :=
  if a.overlaps b then
    let f := max a.start b.start
    let t := min (a.start + a.length) (b.start + b.length)
    some ⟨f, t - f⟩
  else
    none

/-- Model of `struct RangeMapping { range: Range, to: u32 }`.
The Rust field `to` is a Lean keyword and is called `dest` here. -/
structure RangeMapping where
  range : Range
  dest : Nat
deriving DecidableEq, Repr

/-- The derived lexicographic `Ord` of the Rust `Range` (first by `from`,
then by `length`), as a boolean `≤`. -/
def rangeLe (a b : Range) : Bool :=
  decide (a.start < b.start) || (decide (a.start = b.start) && decide (a.length ≤ b.length))

/-- Insert into a list sorted by `rangeLe`. -/
def insertSorted (r : Range) : List Range → List Range
  | [] => [r]
  | x :: xs => if rangeLe r x then r :: x :: xs else x :: insertSorted r xs

/-- Model of `Vec::sort` on `Vec<Range>` (stable sort by the derived `Ord`).
Since the derived order is total and antisymmetric on values, the sorted
permutation is unique as a list, so any correct sorting algorithm models it. -/
def sortRanges (l : List Range) : List Range := l.foldr insertSorted []

/-- The loop body of `map_range`: walk the mappings, consuming the range as
we go.  Mirrors the `for mapping in mappings` loop together with the final
`if range.length > 0 { result.push(range) }`. -/
def mapRangeGo : List RangeMapping → Range → List Range
  | [], range => if 0 < range.length then [range] else []
  | mapping :: rest, range =>
    match mapping.range.intersection range with
    | none => mapRangeGo rest range
    | some inter =>
      (if range.start < inter.start then
        [Range.mk range.start (inter.start - range.start)]
      else []) ++
      Range.mk (mapping.dest + inter.start - mapping.range.start) inter.length ::
      mapRangeGo rest
        (Range.mk (inter.start + inter.length)
          (range.length - (inter.start + inter.length - range.start)))

/-- Model of `map_range(mappings, range)`: the loop above followed by
`result.sort()`. -/
def map_range (mappings : List RangeMapping) (range : Range) : List Range :=
  sortRanges (mapRangeGo mappings range)

/-- The strict half-open overlap relation used by the SPEC's claims
(`a.start < b.start + b.length AND b.start < a.start + a.length`). -/
def strictOverlap (a b : Range) : Bool :=
  decide (a.start < b.start + b.length) && decide (b.start < a.start + a.length)

/-- "Sorted ascending by source start" for a mapping table, tested on
adjacent entries. -/
def sortedBySource : List RangeMapping → Bool
  | [] => true
  | [_] => true
  | a :: b :: rest =>
    decide (a.range.start ≤ b.range.start) && sortedBySource (b :: rest)

/-- "Pairwise non-overlapping in source space" for a mapping table (overlap
in the claims' strict half-open sense). -/
def pairwiseDisjoint : List RangeMapping → Bool
  | [] => true
  | a :: rest => rest.all (fun b => !(strictOverlap a.range b.range)) && pairwiseDisjoint rest

/-- Model of the `Entity` enum. -/
inductive Entity where
  | seed | soil | fertilizer | water | light | temperature | humidity | location
deriving DecidableEq, Repr

/-- Model of `EntityMap = BTreeMap<Entity, (Entity, RangeMappings)>`,
as an association list used only through key lookup. -/
def EntityMap : Type := List (Entity × (Entity × List RangeMapping))

/-- `BTreeMap::get`. -/
def emGet (em : EntityMap) (e : Entity) : Option (Entity × List RangeMapping) :=
  (List.find? (fun p => p.1 == e) em).map (fun p => p.2)

/-- `BTreeMap::insert` (replaces an existing binding of the key). -/
def emInsert (em : EntityMap) (k : Entity) (v : Entity × List RangeMapping) : EntityMap :=
  List.filter (fun p => !(p.1 == k)) em ++ [(k, v)]

/-- Model of `new_entity_map`. -/
def new_entity_map (maps : List (Entity × Entity × List RangeMapping)) : EntityMap :=
  maps.foldl (fun em t => emInsert em t.1 t.2) []

/-- Model of `struct Game`. -/
structure Game where
  seed_ranges : List Range
  entity_map : EntityMap

/-- Model of `follow_map`.  The Rust function recurses from entity to entity
with no bound; the extra `fuel` argument makes the recursion structural.
`none` models an aborted run: either the `.unwrap()` panic when the entity is
absent from the map, or unbounded recursion on a chain that never reaches
`Location` (fuel exhaustion); neither produces a value in Rust. -/
def follow_map (fuel : Nat) (game : Game) (entity : Entity) (ranges : List Range) :
    Option (List Range) :=
  match fuel with
  | 0 => none
  | fuel + 1 =>
    match emGet game.entity_map entity with
    | none => none
    | some (next_entity, mappings) =>
      let ranges := ranges.flatMap (fun range => map_range mappings range)
      if next_entity == Entity.location then some ranges
      else follow_map fuel game next_entity ranges

/-- Model of the error type used by `process` (`AocError::ParseError` is the
only variant the day-05 sources construct; `custom_error.rs` itself is outside
the analysed sources). -/
inductive AocError where
  | ParseError : String → AocError
deriving DecidableEq, Repr

/-- Model of `Iterator::min` on `Vec<Range>` under the derived lexicographic
`Ord` (first minimal element; ties are value-equal here since the order is
antisymmetric on values). -/
def listMin : List Range → Option Range
  | [] => none
  | r :: rs => some (rs.foldl (fun a b => if rangeLe a b then a else b) r)

/-- Model of `process` after parsing: `parse_game` is the external parsing
collaborator (out of scope per the spec), so the model starts from the parsed
`Game`.  The fuel `8` covers any acyclic chain over the eight entities; `none`
models a panic inside `follow_map`.  The string result mirrors
`min_location.to_string()`. -/
def process (game : Game) : Option (Except AocError String) :=
  match follow_map 8 game Entity.seed game.seed_ranges with
  | none => none
  | some ranges =>
    some (match listMin ranges with
      | none => Except.error (AocError.ParseError "No range on seeds found")
      | some range => Except.ok (toString range.start))

/-! ## The canonical seven-stage example

The `Game` that `parse_game` produces from the canonical example input of
`tests::test_process` (each stage's rows sorted ascending by source start,
as `parse_map` does with `sort_unstable_by_key`). -/

/-- `seed-to-soil map: 50 98 2 / 52 50 48`, sorted by source start. -/
def seedToSoil : List RangeMapping := [⟨⟨50, 48⟩, 52⟩, ⟨⟨98, 2⟩, 50⟩]

/-- `soil-to-fertilizer map: 0 15 37 / 37 52 2 / 39 0 15`, sorted. -/
def soilToFertilizer : List RangeMapping := [⟨⟨0, 15⟩, 39⟩, ⟨⟨15, 37⟩, 0⟩, ⟨⟨52, 2⟩, 37⟩]

/-- `fertilizer-to-water map: 49 53 8 / 0 11 42 / 42 0 7 / 57 7 4`, sorted. -/
def fertilizerToWater : List RangeMapping :=
  [⟨⟨0, 7⟩, 42⟩, ⟨⟨7, 4⟩, 57⟩, ⟨⟨11, 42⟩, 0⟩, ⟨⟨53, 8⟩, 49⟩]

/-- `water-to-light map: 88 18 7 / 18 25 70`, sorted. -/
def waterToLight : List RangeMapping := [⟨⟨18, 7⟩, 88⟩, ⟨⟨25, 70⟩, 18⟩]

/-- `light-to-temperature map: 45 77 23 / 81 45 19 / 68 64 13`, sorted. -/
def lightToTemperature : List RangeMapping :=
  [⟨⟨45, 19⟩, 81⟩, ⟨⟨64, 13⟩, 68⟩, ⟨⟨77, 23⟩, 45⟩]

/-- `temperature-to-humidity map: 0 69 1 / 1 0 69`, sorted. -/
def temperatureToHumidity : List RangeMapping := [⟨⟨0, 69⟩, 1⟩, ⟨⟨69, 1⟩, 0⟩]

/-- `humidity-to-location map: 60 56 37 / 56 93 4`, sorted. -/
def humidityToLocation : List RangeMapping := [⟨⟨56, 37⟩, 60⟩, ⟨⟨93, 4⟩, 56⟩]

/-- The parsed canonical game: `seeds: 79 14 55 13` and the seven stages. -/
def canonicalGame : Game :=
  { seed_ranges := [⟨79, 14⟩, ⟨55, 13⟩]
    entity_map := new_entity_map
      [(Entity.seed, Entity.soil, seedToSoil),
       (Entity.soil, Entity.fertilizer, soilToFertilizer),
       (Entity.fertilizer, Entity.water, fertilizerToWater),
       (Entity.water, Entity.light, waterToLight),
       (Entity.light, Entity.temperature, lightToTemperature),
       (Entity.temperature, Entity.humidity, temperatureToHumidity),
       (Entity.humidity, Entity.location, humidityToLocation)] }

end Day5

namespace Day5Part1

/-- Model of `part1.rs` `struct Range { from: u32, length: u32, to: u32 }`
(the Rust fields `from` and `to` are Lean keywords, called `start` and
`dest` here). -/
structure Range1 where
  start : Nat
  length : Nat
  dest : Nat
deriving DecidableEq, Repr

instance : Inhabited Range1 := ⟨⟨0, 0, 0⟩⟩

/-- Model of Rust `slice::binary_search_by(|range| range.from.cmp(&value))`
by its documented contract for slices sorted on the probed key: `Ok i` for an
index holding the key, otherwise `Err` of the insertion point (the number of
leading elements whose key is below the probe).  The standard-library search
is modelled by this linear computation of the same contract. -/
def binary_search (l : List Range1) (value : Nat) : Except Nat Nat :=
  match l with
  | [] => Except.error 0
  | e :: rest =>
    if value ≤ e.start then
      (if e.start = value then Except.ok 0 else Except.error 0)
    else
      match binary_search rest value with
      | Except.ok i => Except.ok (i + 1)
      | Except.error i => Except.error (i + 1)

/-- Model of the inner `range_matches_value` of `search_range`: note the
inclusive upper bound `value <= range.from + range.length` in the source. -/
def range_matches_value (range : Range1) (value : Nat) : Option Range1 :=
  if range.start ≤ value ∧ value ≤ range.start + range.length then some range else none

/-- Model of `search_range`: binary search for the lower bound, step back one
on a miss, then check the candidate. -/
def search_range (range_map : List Range1) (value : Nat) : Option Range1 :=
  (match binary_search range_map value with
   | Except.ok index => some index
   | Except.error index => if index = 0 then none else some (index - 1)).bind
    (fun index => range_matches_value (range_map.getD index default) value)

/-- Model of `convert_value`. -/
def convert_value (range_map : List Range1) (value : Nat) : Nat :=
  match search_range range_map value with
  | some range => range.dest + (value - range.start)
  | none => value

/-- The part1 view of a part2 mapping entry ("the same table" of claim C6):
`RangeMapping { range: Range { from, length }, to }` as
`Range { from, length, to }`. -/
def toRange1 (m : Day5.RangeMapping) : Range1 :=
  ⟨m.range.start, m.range.length, m.dest⟩

end Day5Part1

namespace Day5

/-! ## 32-bit wrap-around model (claim C10) -/

/-- `u32` addition, wrapping modulo `2^32`. -/
def add32 (a b : Nat) : Nat := (a + b) % 2 ^ 32

/-- `u32` subtraction, wrapping modulo `2^32` (for representable operands). -/
def sub32 (a b : Nat) : Nat := (a + 2 ^ 32 - b) % 2 ^ 32

/-- `Range::overlaps` with the endpoint sums computed in `u32` arithmetic. -/
def overlaps32 (a b : Range) : Bool :=
  decide (a.start ≤ add32 b.start b.length) && decide (b.start ≤ add32 a.start a.length)

/-- `Range::intersection` with all arithmetic in `u32`. -/
def intersection32 (a b : Range) : Option Range :=
  if overlaps32 a b then
    let f := max a.start b.start
    let t := min (add32 a.start a.length) (add32 b.start b.length)
    some ⟨f, sub32 t f⟩
  else
    none

/-- The point translation a mapping table defines: the first entry whose
half-open source range contains `v` relocates `v`; otherwise `v` passes
through.  Used to relate the range-based and scalar variants. -/
def pointLookup (ms : List RangeMapping) (v : Nat) : Nat :=
  match ms.find? (fun m =>
      decide (m.range.start ≤ v) && decide (v < m.range.start + m.range.length)) with
  | some m => m.dest + (v - m.range.start)
  | none => v

/-- A one-stage game (`seed` maps straight to `location` through an empty
table), used to instantiate the aggregation theorem. -/
def tinyGame : Game :=
  { seed_ranges := [⟨5, 2⟩]
    entity_map := new_entity_map [(Entity.seed, Entity.location, [])] }

end Day5

namespace Day5

/-! ## Lemmas about the range algebra -/

theorem overlaps_le {a b : Range} (h : a.overlaps b = true) :
    a.start ≤ b.start + b.length ∧ b.start ≤ a.start + a.length := by
  simpa [Range.overlaps] using h

theorem intersection_eq_some {a b i : Range} (h : a.intersection b = some i) :
    i.start = max a.start b.start ∧
      i.start + i.length = min (a.start + a.length) (b.start + b.length) := by
  unfold Range.intersection at h
  by_cases hov : a.overlaps b = true
  · simp only [hov, if_true] at h
    obtain ⟨hle₁, hle₂⟩ := overlaps_le hov
    cases h
    constructor
    · rfl
    · simp only []
      omega
  · simp [hov] at h

theorem intersection_bounds {a b i : Range} (h : a.intersection b = some i) :
    a.start ≤ i.start ∧ b.start ≤ i.start ∧
      i.start + i.length ≤ a.start + a.length ∧
      i.start + i.length ≤ b.start + b.length := by
  obtain ⟨h₁, h₂⟩ := intersection_eq_some h
  omega

/-! ## Lemmas about sorting -/

theorem rangeLe_start {a b : Range} (h : rangeLe a b = true) :
    a.start ≤ b.start := by
  simp only [rangeLe, Bool.or_eq_true, Bool.and_eq_true, decide_eq_true_eq] at h
  omega

theorem rangeLe_of_not_rangeLe {a b : Range} (h : ¬ rangeLe a b = true) :
    rangeLe b a = true := by
  simp only [rangeLe, Bool.or_eq_true, Bool.and_eq_true, decide_eq_true_eq] at *
  omega

theorem rangeLe_trans {a b c : Range} (hab : rangeLe a b = true)
    (hbc : rangeLe b c = true) : rangeLe a c = true := by
  simp only [rangeLe, Bool.or_eq_true, Bool.and_eq_true, decide_eq_true_eq] at *
  omega

theorem insertSorted_perm (r : Range) (l : List Range) :
    List.Perm (insertSorted r l) (r :: l) := by
  induction l with
  | nil => simp [insertSorted]
  | cons x xs ih =>
    unfold insertSorted
    by_cases h : rangeLe r x = true
    · simp [h]
    · simp only [h, if_false]
      exact List.Perm.trans (List.Perm.cons x ih) (List.Perm.swap r x xs)

theorem sortRanges_perm (l : List Range) : List.Perm (sortRanges l) l := by
  induction l with
  | nil => simp [sortRanges]
  | cons x xs ih =>
    have : sortRanges (x :: xs) = insertSorted x (sortRanges xs) := rfl
    rw [this]
    exact List.Perm.trans (insertSorted_perm x (sortRanges xs)) (List.Perm.cons x ih)

theorem mem_insertSorted {r y : Range} {l : List Range}
    (h : y ∈ insertSorted r l) : y = r ∨ y ∈ l := by
  have := (insertSorted_perm r l).mem_iff.mp h
  simpa using this

theorem insertSorted_sorted (r : Range) (l : List Range)
    (h : List.Pairwise (fun a b => rangeLe a b = true) l) :
    List.Pairwise (fun a b => rangeLe a b = true) (insertSorted r l) := by
  induction l with
  | nil => simp [insertSorted]
  | cons x xs ih =>
    unfold insertSorted
    rcases List.pairwise_cons.mp h with ⟨hx, hxs⟩
    by_cases hrx : rangeLe r x = true
    · simp only [hrx, if_true]
      refine List.pairwise_cons.mpr ⟨?_, h⟩
      intro y hy
      rcases List.mem_cons.mp hy with hy | hy
      · exact hy ▸ hrx
      · exact rangeLe_trans hrx (hx y hy)
    · simp only [hrx, if_false]
      refine List.pairwise_cons.mpr ⟨?_, ih hxs⟩
      intro y hy
      rcases mem_insertSorted hy with hy | hy
      · exact hy ▸ rangeLe_of_not_rangeLe hrx
      · exact hx y hy

theorem sortRanges_sorted (l : List Range) :
    List.Pairwise (fun a b => rangeLe a b = true) (sortRanges l) := by
  induction l with
  | nil => simp [sortRanges]
  | cons x xs ih => exact insertSorted_sorted x (sortRanges xs) ih

/-! ## Coverage of map_range (claim C1) -/

theorem mapRangeGo_sum (ms : List RangeMapping) (r : Range) :
    ((mapRangeGo ms r).map Range.length).sum = r.length := by
  induction ms generalizing r with
  | nil =>
    unfold mapRangeGo
    by_cases h : 0 < r.length
    · simp [h]
    · simp [h]
      omega
  | cons m rest ih =>
    unfold mapRangeGo
    cases hi : m.range.intersection r with
    | none => exact ih r
    | some i =>
      obtain ⟨hb₁, hb₂, hb₃, hb₄⟩ := intersection_bounds hi
      simp only [List.map_append, List.sum_append, List.map_cons, List.sum_cons]
      rw [ih]
      by_cases hgap : r.start < i.start
      · simp only [hgap, if_true, List.map_cons, List.map_nil, List.sum_cons, List.sum_nil]
        omega
      · simp only [hgap, if_false, List.map_nil, List.sum_nil]
        omega

end Day5

namespace Day5

/-! ## Claim C1: coverage invariant -/

/-- C1: for every Range `R` and every mapping table sorted ascending by
source start with pairwise non-overlapping entries, the lengths of the
ranges returned by `map_range` sum to exactly `R.length`.  (The proof in
fact needs neither hypothesis.) -/
theorem map_range_coverage (ms : List RangeMapping) (r : Range)
    (hs : sortedBySource ms = true) (hd : pairwiseDisjoint ms = true) :
    ((map_range ms r).map Range.length).sum = r.length := by
  have hperm : List.Perm (map_range ms r) (mapRangeGo ms r) := sortRanges_perm _
  rw [(hperm.map Range.length).sum_eq, mapRangeGo_sum]

/-- Witness for C1 at the "everything" test table of the source. -/
theorem map_range_coverage_witness :
    sortedBySource [⟨⟨10, 10⟩, 100⟩, ⟨⟨30, 10⟩, 200⟩] = true ∧
    pairwiseDisjoint [⟨⟨10, 10⟩, 100⟩, ⟨⟨30, 10⟩, 200⟩] = true ∧
    ((map_range [⟨⟨10, 10⟩, 100⟩, ⟨⟨30, 10⟩, 200⟩] ⟨0, 50⟩).map Range.length).sum =
      (Range.mk 0 50).length :=
  ⟨by decide, by decide, map_range_coverage _ _ (by decide) (by decide)⟩

/-! ## Claim C2: disjointness invariant -/

/-- C2 counterexample: for the (trivially sorted, non-overlapping) table
`[[10,20) -> 5]` and input `[0,20)`, `map_range` returns `[0,10)` (identity
gap) and `[5,15)` (translated part), which overlap, so the outputs are not
pairwise disjoint. -/
theorem map_range_disjointness_cex :
    sortedBySource [⟨⟨10, 10⟩, 5⟩] = true ∧
    pairwiseDisjoint [⟨⟨10, 10⟩, 5⟩] = true ∧
    ¬ List.Pairwise (fun a b => strictOverlap a b = false)
        (map_range [⟨⟨10, 10⟩, 5⟩] ⟨0, 20⟩) := by
  refine ⟨by decide, by decide, ?_⟩
  intro h
  rw [show map_range [⟨⟨10, 10⟩, 5⟩] ⟨0, 20⟩ = [⟨0, 10⟩, ⟨5, 10⟩] from by decide] at h
  exact absurd ((List.pairwise_cons.mp h).1 ⟨5, 10⟩ (by simp)) (by decide)

/-- C2 amended: the outputs of `map_range` are not pairwise disjoint in
general (a translated part may overlap an identity part); what the code does
guarantee about the output list is that it is sorted ascending by the derived
order (`result.sort()`), its determinism guarantee. -/
theorem map_range_sorted_output (ms : List RangeMapping) (r : Range)
    (hs : sortedBySource ms = true) (hd : pairwiseDisjoint ms = true) :
    List.Pairwise (fun a b => rangeLe a b = true) (map_range ms r) :=
  sortRanges_sorted _

/-- Witness for the amended C2 at the counterexample table. -/
theorem map_range_sorted_output_witness :
    sortedBySource [⟨⟨10, 10⟩, 5⟩] = true ∧
    pairwiseDisjoint [⟨⟨10, 10⟩, 5⟩] = true ∧
    List.Pairwise (fun a b => rangeLe a b = true) (map_range [⟨⟨10, 10⟩, 5⟩] ⟨0, 20⟩) :=
  ⟨by decide, by decide, map_range_sorted_output _ _ (by decide) (by decide)⟩

/-! ## Claim C4: the overlap test -/

/-- C4 counterexample: the claimed strict test rejects touching ranges, but
the source's `overlaps` uses inclusive comparisons, so the touching ranges
`[0,1)` and `[1,2)` DO overlap according to the code while the claimed strict
half-open test does not hold for them. -/
theorem overlaps_touching_cex :
    Range.overlaps ⟨0, 1⟩ ⟨1, 1⟩ = true ∧ strictOverlap ⟨0, 1⟩ ⟨1, 1⟩ = false := by
  decide

/-- C4 amended: `overlaps` returns true iff
`a.start ≤ b.start + b.length AND b.start ≤ a.start + a.length` (inclusive
comparisons); ranges whose endpoints merely touch DO count as overlapping. -/
theorem overlaps_iff_inclusive (a b : Range) :
    Range.overlaps a b = true ↔
      (a.start ≤ b.start + b.length ∧ b.start ≤ a.start + a.length) := by
  simp [Range.overlaps]

/-! ## Claim C5: the intersection -/

/-- C5 counterexample: on the merely touching ranges `[0,5)` and `[5,10)`,
`intersection` returns `Some` of the empty range at 5 instead of `None`, and
the result is not non-empty. -/
theorem intersection_touching_cex :
    Range.intersection ⟨0, 5⟩ ⟨5, 5⟩ = some ⟨5, 0⟩ ∧
      ¬ 0 < (Range.mk 5 0).length := by
  decide

/-- C5 amended: `intersection` returns `None` exactly when the code's
inclusive overlap test fails; any returned range is contained in both
operands and is non-empty whenever two non-empty operands overlap strictly,
but it is the empty range when they merely touch (or when a degenerate
operand sits inside the other). -/
theorem intersection_spec_amended (a b : Range) :
    (Range.overlaps a b = false → Range.intersection a b = none) ∧
    ∀ i, Range.intersection a b = some i →
      (a.start ≤ i.start ∧ i.start + i.length ≤ a.start + a.length ∧
       b.start ≤ i.start ∧ i.start + i.length ≤ b.start + b.length) ∧
      (strictOverlap a b = true → 0 < a.length → 0 < b.length → 0 < i.length) := by
  constructor
  · intro h
    simp [Range.intersection, h]
  · intro i hi
    obtain ⟨h₁, h₂, h₃, h₄⟩ := intersection_bounds hi
    obtain ⟨he₁, he₂⟩ := intersection_eq_some hi
    refine ⟨⟨h₁, h₃, h₂, h₄⟩, ?_⟩
    intro hst ha hb
    simp only [strictOverlap, Bool.and_eq_true, decide_eq_true_eq] at hst
    omega

/-- Witness for the amended C5 on the properly overlapping `[0,5)`, `[3,8)`:
the intersection `[3,5)` is contained in both and non-empty. -/
theorem intersection_spec_amended_witness :
    ((0 : Nat) ≤ 3 ∧ 3 + 2 ≤ 0 + 5 ∧ (3 : Nat) ≤ 3 ∧ 3 + 2 ≤ 3 + 5) ∧
      0 < (2 : Nat) := by
  have h := (intersection_spec_amended ⟨0, 5⟩ ⟨3, 5⟩).2 ⟨3, 2⟩ (by decide)
  exact ⟨h.1, h.2 (by decide) (by decide) (by decide)⟩

/-! ## Claim C7: identity law -/

/-- C7 counterexample: on a zero-length range the empty table does not return
`[R]`: `map_range` drops the degenerate leftover and returns `[]`. -/
theorem identity_law_cex :
    map_range [] ⟨0, 0⟩ = [] ∧ map_range [] ⟨0, 0⟩ ≠ [⟨0, 0⟩] := by
  decide

/-- C7 amended: for every Range of positive length, applying the empty table
returns exactly `[R]`; a zero-length input yields `[]`. -/
theorem map_range_empty_table (r : Range) (h : 0 < r.length) :
    map_range [] r = [r] := by
  simp [map_range, mapRangeGo, h, sortRanges, insertSorted]

/-- Witness for the amended C7. -/
theorem map_range_empty_table_witness :
    0 < (Range.mk 5 3).length ∧ map_range [] ⟨5, 3⟩ = [⟨5, 3⟩] :=
  ⟨by decide, map_range_empty_table _ (by decide)⟩

end Day5

namespace Day5

/-! ## Claim C3: end-to-end canonical scenario -/

/-- C3: running the pipeline on the parsed canonical seven-stage example
with seed ranges `[79,93)` and `[55,68)` yields minimum location 46. -/
theorem process_canonical_example :
    process canonicalGame = some (Except.ok "46") := by
  rfl

/-! ## Claim C8: lookup of a missing entity -/

/-- C8 counterexample: on a game whose chain has no entry for `seed`, the
run does not surface an error result naming the entity; `follow_map` calls
`.unwrap()` on the failed lookup, which panics and aborts the run (modelled
by `none`). -/
theorem lookup_missing_cex :
    process ⟨[⟨79, 14⟩], []⟩ = none := by
  rfl

/-- C8 amended: traversal that looks up an entity absent from the chain
panics immediately (`unwrap` on `None`), aborting the run without producing
any error value; no `LookupError` exists in the code. -/
theorem follow_map_missing_entity (fuel : Nat) (game : Game) (entity : Entity)
    (ranges : List Range) (h : emGet game.entity_map entity = none) :
    follow_map (fuel + 1) game entity ranges = none := by
  unfold follow_map
  rw [h]

/-- Witness for the amended C8 on the empty chain. -/
theorem follow_map_missing_entity_witness :
    emGet (Game.mk [] []).entity_map Entity.seed = none ∧
      follow_map 1 ⟨[], []⟩ Entity.seed [] = none :=
  ⟨by decide, follow_map_missing_entity 0 ⟨[], []⟩ Entity.seed [] (by decide)⟩

/-! ## Claim C9: aggregation of the final range set -/

/-- C9 counterexample: on an empty final range set the pipeline does not
fail with any `EmptyResultError`; it produces
`AocError::ParseError("No range on seeds found")`. -/
theorem empty_result_error_cex :
    process ⟨[], canonicalGame.entity_map⟩ =
      some (Except.error (AocError.ParseError "No range on seeds found")) := by
  rfl

/-- Helper: the fold inside `listMin` returns the accumulator or a list
element, and its start is a lower bound for the accumulator's and every
element's start. -/
theorem foldlMin_spec (l : List Range) (a : Range) :
    (l.foldl (fun a b => if rangeLe a b then a else b) a = a ∨
      l.foldl (fun a b => if rangeLe a b then a else b) a ∈ l) ∧
    (l.foldl (fun a b => if rangeLe a b then a else b) a).start ≤ a.start ∧
    ∀ x ∈ l, (l.foldl (fun a b => if rangeLe a b then a else b) a).start ≤ x.start := by
  induction l generalizing a with
  | nil => simp
  | cons b l ih =>
    simp only [List.foldl_cons]
    obtain ⟨hmem, hle, hall⟩ := ih (if rangeLe a b then a else b)
    have hba : (if rangeLe a b then a else b).start ≤ a.start ∧
        (if rangeLe a b then a else b).start ≤ b.start := by
      by_cases h : rangeLe a b = true
      · simp only [h, if_true]
        exact ⟨Nat.le_refl _, rangeLe_start h⟩
      · simp only [h, if_false]
        exact ⟨rangeLe_start (rangeLe_of_not_rangeLe h), Nat.le_refl _⟩
    refine ⟨?_, ?_, ?_⟩
    · rcases hmem with hmem | hmem
      · rw [hmem]
        by_cases h : rangeLe a b = true
        · simp [h]
        · simp [h]
      · exact Or.inr (List.mem_cons_of_mem _ hmem)
    · exact Nat.le_trans hle hba.1
    · intro x hx
      rcases List.mem_cons.mp hx with hx | hx
      · rw [hx]
        exact Nat.le_trans hle hba.2
      · exact hall x hx

/-- C9 amended: whenever traversal succeeds with final set `rs`, a present
minimum makes the pipeline return the minimum `start` over `rs` (as a
string), and an absent minimum (empty `rs`) makes it fail with
`AocError::ParseError("No range on seeds found")` — there is no dedicated
`EmptyResultError`. -/
theorem process_min_aggregation (game : Game) (rs : List Range)
    (h : follow_map 8 game Entity.seed game.seed_ranges = some rs) :
    (∀ r, listMin rs = some r →
      r ∈ rs ∧ (∀ x ∈ rs, r.start ≤ x.start) ∧
        process game = some (Except.ok (toString r.start))) ∧
    (listMin rs = none →
      rs = [] ∧ process game =
        some (Except.error (AocError.ParseError "No range on seeds found"))) := by
  constructor
  · intro r hr
    cases rs with
    | nil => simp [listMin] at hr
    | cons b l =>
      obtain ⟨hmem, hle, hall⟩ := foldlMin_spec l b
      simp only [listMin, Option.some_inj] at hr
      refine ⟨?_, ?_, ?_⟩
      · rw [← hr]
        rcases hmem with hmem | hmem
        · rw [hmem]; exact List.mem_cons_self _ _
        · exact List.mem_cons_of_mem _ hmem
      · intro x hx
        rw [← hr]
        rcases List.mem_cons.mp hx with hx | hx
        · exact hx ▸ hle
        · exact hall x hx
      · simp only [process, h, listMin, hr]
  · intro hr
    cases rs with
    | nil => exact ⟨rfl, by simp [process, h, listMin]⟩
    | cons b l => simp [listMin] at hr

/-- Witness for the amended C9 on a one-stage game with seed set `[5,7)`. -/
theorem process_min_aggregation_witness :
    process tinyGame = some (Except.ok (toString (5 : Nat))) :=
  ((process_min_aggregation tinyGame [⟨5, 2⟩] (by decide)).1 ⟨5, 2⟩ (by decide)).2.2

/-! ## Claim C10: 32-bit arithmetic bound -/

/-- C10: on operands whose endpoint sums stay below `2^32`, the `u32`
(wrapping) overlap test and intersection agree with the unbounded-integer
model; and there are operands violating the bound on which the wrapped
endpoint sum makes the tests disagree. -/
theorem u32_bound_model :
    (∀ a b : Range,
      a.start + a.length ≤ 2 ^ 32 - 1 → b.start + b.length ≤ 2 ^ 32 - 1 →
        overlaps32 a b = Range.overlaps a b ∧
        intersection32 a b = Range.intersection a b) ∧
    overlaps32 ⟨1, 2 ^ 32 - 1⟩ ⟨5, 1⟩ ≠ Range.overlaps ⟨1, 2 ^ 32 - 1⟩ ⟨5, 1⟩ := by
  constructor
  · intro a b ha hb
    have hma : add32 a.start a.length = a.start + a.length := by
      unfold add32
      apply Nat.mod_eq_of_lt
      omega
    have hmb : add32 b.start b.length = b.start + b.length := by
      unfold add32
      apply Nat.mod_eq_of_lt
      omega
    have hov : overlaps32 a b = Range.overlaps a b := by
      unfold overlaps32 Range.overlaps
      rw [hma, hmb]
    refine ⟨hov, ?_⟩
    unfold intersection32 Range.intersection
    rw [hov, hma, hmb]
    by_cases h : Range.overlaps a b = true
    · obtain ⟨h₁, h₂⟩ := overlaps_le h
      simp only [h, if_true, Option.some_inj]
      have hsub : sub32 (min (a.start + a.length) (b.start + b.length))
          (max a.start b.start) =
          min (a.start + a.length) (b.start + b.length) - max a.start b.start := by
        unfold sub32
        have hfm : max a.start b.start ≤ min (a.start + a.length) (b.start + b.length) := by
          omega
        rw [show min (a.start + a.length) (b.start + b.length) + 2 ^ 32 -
              max a.start b.start =
            (min (a.start + a.length) (b.start + b.length) - max a.start b.start) +
              2 ^ 32 by omega]
        rw [Nat.add_mod_right]
        apply Nat.mod_eq_of_lt
        omega
      rw [hsub]
    · have h' : Range.overlaps a b = false := by
        cases hx : Range.overlaps a b
        · rfl
        · exact absurd hx h
      simp [h']
  · decide

/-- Witness for C10 at in-bound operands. -/
theorem u32_bound_model_witness :
    overlaps32 ⟨0, 3⟩ ⟨2, 4⟩ = Range.overlaps ⟨0, 3⟩ ⟨2, 4⟩ ∧
      intersection32 ⟨0, 3⟩ ⟨2, 4⟩ = Range.intersection ⟨0, 3⟩ ⟨2, 4⟩ :=
  u32_bound_model.1 ⟨0, 3⟩ ⟨2, 4⟩ (by decide) (by decide)

end Day5

namespace Day5

/-! ## Claim C6: helper lemmas for the scalar/range cross-check -/

theorem intersection_none {a b : Range} (h : a.intersection b = none) :
    a.overlaps b = false := by
  unfold Range.intersection at h
  by_cases hov : a.overlaps b = true
  · simp [hov] at h
  · cases hx : a.overlaps b
    · rfl
    · exact absurd hx hov

theorem intersection_some_overlaps {a b i : Range} (h : a.intersection b = some i) :
    a.overlaps b = true := by
  unfold Range.intersection at h
  by_cases hov : a.overlaps b = true
  · exact hov
  · simp [hov] at h

theorem sortedBySource_tail {a : RangeMapping} {rest : List RangeMapping}
    (h : sortedBySource (a :: rest) = true) : sortedBySource rest = true := by
  cases rest with
  | nil => rfl
  | cons b r =>
    unfold sortedBySource at h
    exact (Bool.and_eq_true _ _ |>.mp h).2

theorem sortedBySource_head {a : RangeMapping} {rest : List RangeMapping}
    (h : sortedBySource (a :: rest) = true) :
    ∀ b ∈ rest, a.range.start ≤ b.range.start := by
  induction rest generalizing a with
  | nil => intro b hb; simp at hb
  | cons c r ih =>
    intro b hb
    unfold sortedBySource at h
    obtain ⟨hac, hcr⟩ := Bool.and_eq_true _ _ |>.mp h
    rcases List.mem_cons.mp hb with hb | hb
    · rw [hb]
      exact of_decide_eq_true hac
    · exact Nat.le_trans (of_decide_eq_true hac) (ih hcr b hb)

theorem pairwiseDisjoint_head {a : RangeMapping} {rest : List RangeMapping}
    (h : pairwiseDisjoint (a :: rest) = true) :
    ∀ b ∈ rest, strictOverlap a.range b.range = false := by
  unfold pairwiseDisjoint at h
  obtain ⟨hall, _⟩ := Bool.and_eq_true _ _ |>.mp h
  intro b hb
  have := List.all_eq_true.mp hall b hb
  simp only [Bool.not_eq_true'] at this
  exact this

theorem pairwiseDisjoint_tail {a : RangeMapping} {rest : List RangeMapping}
    (h : pairwiseDisjoint (a :: rest) = true) : pairwiseDisjoint rest = true := by
  unfold pairwiseDisjoint at h
  exact (Bool.and_eq_true _ _ |>.mp h).2

/-- Helper: a sorted table of non-overlapping, non-degenerate entries is
separated: each entry ends at or before the next one starts. -/
theorem sep_of_sorted_disjoint (ms : List RangeMapping)
    (hs : sortedBySource ms = true) (hd : pairwiseDisjoint ms = true)
    (hpos : ∀ m ∈ ms, 0 < m.range.length) :
    List.Pairwise (fun a b => a.range.start + a.range.length ≤ b.range.start) ms := by
  induction ms with
  | nil => exact List.Pairwise.nil
  | cons a rest ih =>
    refine List.pairwise_cons.mpr ⟨?_, ?_⟩
    · intro b hb
      have h₁ := sortedBySource_head hs b hb
      have h₂ := pairwiseDisjoint_head hd b hb
      have h₃ := hpos b (List.mem_cons_of_mem _ hb)
      simp only [strictOverlap, Bool.and_eq_true, decide_eq_true_eq,
        Bool.and_eq_false_iff, decide_eq_false_iff_not, Nat.not_lt] at h₂
      omega
    · exact ih (sortedBySource_tail hs) (pairwiseDisjoint_tail hd)
        (fun m hm => hpos m (List.mem_cons_of_mem _ hm))

/-- Helper: applied to a zero-length range, the `map_range` loop only ever
emits zero-length artifacts. -/
theorem mapRangeGo_zero (ms : List RangeMapping) (x : Nat) :
    ∀ r ∈ mapRangeGo ms ⟨x, 0⟩, r.length = 0 := by
  induction ms with
  | nil => simp [mapRangeGo]
  | cons m rest ih =>
    intro r hr
    unfold mapRangeGo at hr
    cases hi : m.range.intersection ⟨x, 0⟩ with
    | none =>
      simp only [hi] at hr
      exact ih r hr
    | some i =>
      simp only [hi] at hr
      obtain ⟨hb₁, hb₂, hb₃, hb₄⟩ := intersection_bounds hi
      simp only at hb₂ hb₄
      have his : i.start = x := by omega
      have hil : i.length = 0 := by omega
      rw [his, hil] at hr
      simp only [Nat.lt_irrefl, if_false, List.nil_append, List.mem_cons] at hr
      rcases hr with hr | hr
      · rw [hr]
      · have harg : (⟨x + 0, 0 - (x + 0 - x)⟩ : Range) = ⟨x, 0⟩ := by
          congr 1
          omega
        rw [harg] at hr
        exact ih r hr

end Day5

namespace Day5

/-- Helper: filtering for positive length drops a list of zero-length ranges. -/
theorem filter_pos_of_all_zero {l : List Range} (h : ∀ r ∈ l, r.length = 0) :
    l.filter (fun r => decide (0 < r.length)) = [] := by
  induction l with
  | nil => rfl
  | cons a l ih =>
    have ha := h a (List.mem_cons_self _ _)
    simp only [List.filter_cons, ha]
    exact ih (fun r hr => h r (List.mem_cons_of_mem _ hr))

/-- Helper: the intersection facts specialised to a one-length second operand,
with the structure projections reduced. -/
theorem intersection_singleton {m : Range} {v : Nat} {i : Range}
    (h : m.intersection ⟨v, 1⟩ = some i) :
    i.start = max m.start v ∧
      i.start + i.length = min (m.start + m.length) (v + 1) ∧
      m.start ≤ v + 1 ∧ v ≤ m.start + m.length := by
  obtain ⟨h1, h2⟩ := intersection_eq_some h
  have h3 := overlaps_le (intersection_some_overlaps h)
  simp only at h1 h2 h3
  exact ⟨h1, h2, h3.1, h3.2⟩


/-- Helper: `pointLookup` skips a leading entry that does not contain `v`. -/
theorem pointLookup_cons_neg {m : RangeMapping} {rest : List RangeMapping} {v : Nat}
    (h : (decide (m.range.start ≤ v) &&
      decide (v < m.range.start + m.range.length)) = false) :
    pointLookup (m :: rest) v = pointLookup rest v := by
  unfold pointLookup
  simp only [List.find?, h]

/-- Helper: `pointLookup` translates by a leading entry that contains `v`. -/
theorem pointLookup_cons_pos {m : RangeMapping} {rest : List RangeMapping} {v : Nat}
    (h : (decide (m.range.start ≤ v) &&
      decide (v < m.range.start + m.range.length)) = true) :
    pointLookup (m :: rest) v = m.dest + (v - m.range.start) := by
  unfold pointLookup
  simp only [List.find?, h]

/-- Helper: `pointLookup` is the identity on a table with no containing entry. -/
theorem pointLookup_find_none {ms : List RangeMapping} {v : Nat}
    (h : List.find? (fun m => decide (m.range.start ≤ v) &&
      decide (v < m.range.start + m.range.length)) ms = none) :
    pointLookup ms v = v := by
  unfold pointLookup
  rw [h]

/-- Helper: on a one-length range `[v, v+1)` and a separated table, the
positive-length outputs of the `map_range` loop are exactly the singleton
range at the table's point translation of `v`. -/
theorem mapRangeGo_singleton (v : Nat) (ms : List RangeMapping)
    (hsep : List.Pairwise
      (fun a b => a.range.start + a.range.length ≤ b.range.start) ms) :
    (mapRangeGo ms ⟨v, 1⟩).filter (fun r => decide (0 < r.length)) =
      [⟨pointLookup ms v, 1⟩] := by
  induction ms with
  | nil => simp [mapRangeGo, pointLookup]
  | cons m rest ih =>
    obtain ⟨hm, hrest⟩ := List.pairwise_cons.mp hsep
    unfold mapRangeGo
    cases hi : m.range.intersection ⟨v, 1⟩ with
    | none =>
      simp only [hi]
      have hpred : (decide (m.range.start ≤ v) &&
          decide (v < m.range.start + m.range.length)) = false := by
        cases hp : (decide (m.range.start ≤ v) &&
            decide (v < m.range.start + m.range.length))
        · rfl
        · simp only [Bool.and_eq_true, decide_eq_true_eq] at hp
          have hov : m.range.overlaps ⟨v, 1⟩ = true := by
            simp only [Range.overlaps, Bool.and_eq_true, decide_eq_true_eq]
            constructor <;> omega
          simp [Range.intersection, hov] at hi
      rw [pointLookup_cons_neg hpred]
      exact ih hrest
    | some i =>
      simp only [hi]
      obtain ⟨he₁, he₂, hov₁, hov₂⟩ := intersection_singleton hi
      by_cases hc : m.range.start ≤ v ∧ v < m.range.start + m.range.length
      · -- the entry's half-open source range contains v
        have hi1 : i.start = v := by omega
        have hi2 : i.length = 1 := by omega
        rw [hi1, hi2]
        have harg : (⟨v + 1, 1 - (v + 1 - v)⟩ : Range) = ⟨v + 1, 0⟩ := by
          congr 1
          omega
        rw [harg]
        have hzero := filter_pos_of_all_zero (mapRangeGo_zero rest (v + 1))
        have hpc : (decide (m.range.start ≤ v) &&
            decide (v < m.range.start + m.range.length)) = true := by
          simp only [Bool.and_eq_true, decide_eq_true_eq]
          exact hc
        rw [pointLookup_cons_pos hpc]
        have hd : m.dest + v - m.range.start = m.dest + (v - m.range.start) := by
          omega
        simp only [Nat.lt_irrefl, if_false, List.nil_append, List.filter_cons,
          decide_eq_true_eq, Nat.zero_lt_one, if_true, hzero, hd]
      · by_cases hlt : v < m.range.start
        · -- the entry starts just past v (touching on the right)
          have hi1 : i.start = v + 1 := by omega
          have hi2 : i.length = 0 := by omega
          rw [hi1, hi2]
          have harg : (⟨v + 1 + 0, 1 - (v + 1 + 0 - v)⟩ : Range) = ⟨v + 1, 0⟩ := by
            congr 1
            omega
          rw [harg]
          have hzero := filter_pos_of_all_zero (mapRangeGo_zero rest (v + 1))
          have hgap : (⟨v, v + 1 - v⟩ : Range) = ⟨v, 1⟩ := by
            congr 1
            omega
          have hfind : List.find? (fun mm => decide (mm.range.start ≤ v) &&
              decide (v < mm.range.start + mm.range.length)) (m :: rest) = none := by
            rw [List.find?_eq_none]
            intro b hb
            rcases List.mem_cons.mp hb with hb | hb
            · rw [hb]
              simp only [Bool.and_eq_true, decide_eq_true_eq, not_and, Nat.not_lt]
              intro hbs
              omega
            · have hsb := hm b hb
              simp only [Bool.and_eq_true, decide_eq_true_eq, not_and, Nat.not_lt]
              intro hbs
              omega
          rw [pointLookup_find_none hfind]
          simp only [Nat.lt_succ_self, if_true, hgap, List.cons_append,
            List.nil_append, List.filter_cons, decide_eq_true_eq, Nat.lt_irrefl,
            Nat.zero_lt_one, if_false, hzero]
        · -- v sits exactly at the entry's exclusive end
          have hi1 : i.start = v := by omega
          have hi2 : i.length = 0 := by omega
          rw [hi1, hi2]
          have harg : (⟨v + 0, 1 - (v + 0 - v)⟩ : Range) = ⟨v, 1⟩ := by
            congr 1
            omega
          rw [harg]
          have hpred : (decide (m.range.start ≤ v) &&
              decide (v < m.range.start + m.range.length)) = false := by
            simp only [Bool.and_eq_false_iff, decide_eq_false_iff_not, Nat.not_le,
              Nat.not_lt]
            omega
          rw [pointLookup_cons_neg hpred]
          rw [show (⟨v, 1⟩ : Range) = ({ start := v, length := 1 } : Range) from rfl]
          simp only [Nat.lt_irrefl, if_false, List.nil_append, List.filter_cons,
            decide_eq_true_eq]
          rw [ih hrest]

end Day5

namespace Day5Part1

/-- Inversion for a successful binary search: the probed index holds the key. -/
theorem binary_search_ok {l : List Range1} {v i : Nat}
    (h : binary_search l v = Except.ok i) :
    i < l.length ∧ (l.getD i default).start = v := by
  induction l generalizing i with
  | nil => simp [binary_search] at h
  | cons e rest ih =>
    unfold binary_search at h
    by_cases h1 : v ≤ e.start
    · by_cases h2 : e.start = v
      · rw [if_pos h1, if_pos h2] at h
        cases h
        exact ⟨Nat.succ_pos _, by simpa using h2⟩
      · rw [if_pos h1, if_neg h2] at h
        exact Except.noConfusion h
    · rw [if_neg h1] at h
      cases hb : binary_search rest v with
      | ok j =>
        simp only [hb, Except.ok.injEq] at h
        obtain ⟨hj, hgs⟩ := ih hb
        subst h
        refine ⟨by simpa using Nat.succ_lt_succ hj, ?_⟩
        rw [List.getD_cons_succ]
        exact hgs
      | error j =>
        rw [hb] at h
        exact Except.noConfusion h

/-- Inversion for insertion point 0 on a non-empty list: the probe is below
the head's key. -/
theorem binary_search_err0_cons {e : Range1} {rest : List Range1} {v : Nat}
    (h : binary_search (e :: rest) v = Except.error 0) : v < e.start := by
  unfold binary_search at h
  by_cases h1 : v ≤ e.start
  · by_cases h2 : e.start = v
    · rw [if_pos h1, if_pos h2] at h
      exact Except.noConfusion h
    · omega
  · rw [if_neg h1] at h
    cases hb : binary_search rest v with
    | ok j =>
      rw [hb] at h
      exact Except.noConfusion h
    | error j =>
      simp only [hb, Except.error.injEq] at h
      omega

/-- Inversion for a positive insertion point on a non-empty list: the head's
key is below the probe and the tail search gives the previous point. -/
theorem binary_search_err_succ_cons {e : Range1} {rest : List Range1} {v i : Nat}
    (h : binary_search (e :: rest) v = Except.error (i + 1)) :
    e.start < v ∧ binary_search rest v = Except.error i := by
  unfold binary_search at h
  by_cases h1 : v ≤ e.start
  · by_cases h2 : e.start = v
    · rw [if_pos h1, if_pos h2] at h
      exact Except.noConfusion h
    · rw [if_pos h1, if_neg h2] at h
      simp at h
  · rw [if_neg h1] at h
    cases hb : binary_search rest v with
    | ok j =>
      rw [hb] at h
      exact Except.noConfusion h
    | error j =>
      simp only [hb, Except.error.injEq] at h
      refine ⟨Nat.lt_of_not_le h1, ?_⟩
      have hj : j = i := by omega
      rw [← hj]

end Day5Part1


namespace Day5Part1

/-- Reduction of `search_range` for a successful binary search. -/
theorem search_range_ok {l : List Range1} {v i : Nat}
    (h : binary_search l v = Except.ok i) :
    search_range l v = range_matches_value (l.getD i default) v := by
  unfold search_range
  rw [h]
  rfl

/-- Reduction of `search_range` for insertion point zero. -/
theorem search_range_err_zero {l : List Range1} {v : Nat}
    (h : binary_search l v = Except.error 0) :
    search_range l v = none := by
  unfold search_range
  rw [h]
  rfl

/-- Reduction of `search_range` for a positive insertion point: the candidate
is the entry just before it. -/
theorem search_range_err_succ {l : List Range1} {v i : Nat}
    (h : binary_search l v = Except.error (i + 1)) :
    search_range l v = range_matches_value (l.getD i default) v := by
  unfold search_range
  rw [h]
  rfl

end Day5Part1

namespace Day5Part1

/-- One-step unfolding of the half-open containment search, failing head. -/
theorem find?_half_open_cons_false {v : Nat} {e : Range1} {l : List Range1}
    (h : (decide (e.start ≤ v) && decide (v < e.start + e.length)) = false) :
    List.find? (fun x => decide (x.start ≤ v) && decide (v < x.start + x.length)) (e :: l) =
      List.find? (fun x => decide (x.start ≤ v) && decide (v < x.start + x.length)) l := by
  simp only [List.find?, h]

/-- One-step unfolding of the half-open containment search, matching head. -/
theorem find?_half_open_cons_true {v : Nat} {e : Range1} {l : List Range1}
    (h : (decide (e.start ≤ v) && decide (v < e.start + e.length)) = true) :
    List.find? (fun x => decide (x.start ≤ v) && decide (v < x.start + x.length)) (e :: l) =
      some e := by
  simp only [List.find?, h]

/-- Helper: on a separated table of non-degenerate entries and a probe that
is no entry's exclusive end, `search_range` finds exactly the entry whose
half-open source range contains the probe. -/
theorem search_range_eq_find (v : Nat) (l : List Range1)
    (hsep : List.Pairwise (fun a b => a.start + a.length ≤ b.start) l)
    (hpos : ∀ e ∈ l, 0 < e.length)
    (hv : ∀ e ∈ l, v ≠ e.start + e.length) :
    search_range l v =
      l.find? (fun e => decide (e.start ≤ v) && decide (v < e.start + e.length)) := by
  induction l with
  | nil => rfl
  | cons e rest ih =>
    obtain ⟨hsepe, hsrest⟩ := List.pairwise_cons.mp hsep
    have hpe := hpos e (List.mem_cons_self _ _)
    have hve := hv e (List.mem_cons_self _ _)
    have hIH := ih hsrest (fun x hx => hpos x (List.mem_cons_of_mem _ hx))
      (fun x hx => hv x (List.mem_cons_of_mem _ hx))
    by_cases h1 : v ≤ e.start
    · by_cases h2 : e.start = v
      · -- exact hit on the head's key
        have hbs : binary_search (e :: rest) v = Except.ok 0 := by
          unfold binary_search
          rw [if_pos h1, if_pos h2]
        have hpredT : (decide (e.start ≤ v) && decide (v < e.start + e.length)) = true := by
          simp only [Bool.and_eq_true, decide_eq_true_eq]
          omega
        rw [search_range_ok hbs, List.getD_cons_zero, find?_half_open_cons_true hpredT]
        unfold range_matches_value
        rw [if_pos (by omega : e.start ≤ v ∧ v ≤ e.start + e.length)]
      · -- probe strictly below the head: no entry matches
        have hlt : v < e.start := by omega
        have hbs : binary_search (e :: rest) v = Except.error 0 := by
          unfold binary_search
          rw [if_pos h1, if_neg h2]
        have hfind : List.find? (fun x => decide (x.start ≤ v) &&
            decide (v < x.start + x.length)) (e :: rest) = none := by
          rw [List.find?_eq_none]
          intro b hb
          rcases List.mem_cons.mp hb with hb | hb
          · rw [hb]
            simp only [Bool.and_eq_true, decide_eq_true_eq, not_and, Nat.not_lt]
            intro hbs'
            omega
          · have hsb := hsepe b hb
            simp only [Bool.and_eq_true, decide_eq_true_eq, not_and, Nat.not_lt]
            intro hbs'
            omega
        rw [search_range_err_zero hbs, hfind]
    · -- head's key strictly below the probe
      have hlt : e.start < v := by omega
      cases hb : binary_search rest v with
      | ok j =>
        obtain ⟨hj, hgs⟩ := binary_search_ok hb
        have hmem : rest.getD j default ∈ rest := by
          rw [List.getD_eq_getElem rest default hj]
          exact List.getElem_mem hj
        have hEv : e.start + e.length ≤ v := by
          have := hsepe _ hmem
          omega
        have hpredF : (decide (e.start ≤ v) && decide (v < e.start + e.length)) = false := by
          simp only [Bool.and_eq_false_iff, decide_eq_false_iff_not, Nat.not_lt, Nat.not_le]
          right
          omega
        have hbs : binary_search (e :: rest) v = Except.ok (j + 1) := by
          unfold binary_search
          rw [if_neg h1]
          simp only [hb]
        rw [search_range_ok hbs, List.getD_cons_succ, find?_half_open_cons_false hpredF]
        rw [← hIH, search_range_ok hb]
      | error j =>
        cases j with
        | zero =>
          have hbs : binary_search (e :: rest) v = Except.error 1 := by
            unfold binary_search
            rw [if_neg h1]
            simp only [hb]
          rw [show (1 : Nat) = 0 + 1 from rfl] at hbs
          rw [search_range_err_succ hbs, List.getD_cons_zero]
          by_cases hvE : v < e.start + e.length
          · -- the head's half-open range contains the probe
            have hpredT : (decide (e.start ≤ v) && decide (v < e.start + e.length)) = true := by
              simp only [Bool.and_eq_true, decide_eq_true_eq]
              omega
            rw [find?_half_open_cons_true hpredT]
            unfold range_matches_value
            rw [if_pos (by omega : e.start ≤ v ∧ v ≤ e.start + e.length)]
          · -- the probe is strictly past the head
            have hgt : e.start + e.length < v := by omega
            have hpredF : (decide (e.start ≤ v) && decide (v < e.start + e.length)) = false := by
              simp only [Bool.and_eq_false_iff, decide_eq_false_iff_not, Nat.not_lt, Nat.not_le]
              right
              omega
            have hfrest : List.find? (fun x => decide (x.start ≤ v) &&
                decide (v < x.start + x.length)) rest = none := by
              rw [List.find?_eq_none]
              cases rest with
              | nil =>
                intro b hb'
                simp at hb'
              | cons r r' =>
                have hrv := binary_search_err0_cons hb
                have hrpos := hpos r (List.mem_cons_of_mem _ (List.mem_cons_self _ _))
                obtain ⟨hsepr, _⟩ := List.pairwise_cons.mp hsrest
                intro b hbm
                rcases List.mem_cons.mp hbm with hbm | hbm
                · rw [hbm]
                  simp only [Bool.and_eq_true, decide_eq_true_eq, not_and, Nat.not_lt]
                  intro hbs'
                  omega
                · have hsb := hsepr b hbm
                  simp only [Bool.and_eq_true, decide_eq_true_eq, not_and, Nat.not_lt]
                  intro hbs'
                  omega
            rw [find?_half_open_cons_false hpredF, hfrest]
            unfold range_matches_value
            rw [if_neg (by omega : ¬ (e.start ≤ v ∧ v ≤ e.start + e.length))]
        | succ j' =>
          have hbs : binary_search (e :: rest) v = Except.error (j' + 1 + 1) := by
            unfold binary_search
            rw [if_neg h1]
            simp only [hb]
          cases rest with
          | nil => simp [binary_search] at hb
          | cons r r' =>
            obtain ⟨hrlt, hbr⟩ := binary_search_err_succ_cons hb
            have hEv : e.start + e.length ≤ v := by
              have := hsepe r (List.mem_cons_self _ _)
              omega
            have hpredF : (decide (e.start ≤ v) && decide (v < e.start + e.length)) = false := by
              simp only [Bool.and_eq_false_iff, decide_eq_false_iff_not, Nat.not_lt, Nat.not_le]
              right
              omega
            rw [search_range_err_succ hbs, List.getD_cons_succ,
              find?_half_open_cons_false hpredF]
            rw [← hIH, search_range_err_succ hb]

end Day5Part1

namespace Day5

/-- Helper: the scalar lookup of part1, run on the part1 view of a part2
table, computes the table's point translation. -/
theorem convert_value_pointLookup (ms : List RangeMapping) (v : Nat)
    (hsep : List.Pairwise
      (fun a b => a.range.start + a.range.length ≤ b.range.start) ms)
    (hpos : ∀ m ∈ ms, 0 < m.range.length)
    (hv : ∀ m ∈ ms, v ≠ m.range.start + m.range.length) :
    Day5Part1.convert_value (ms.map Day5Part1.toRange1) v = pointLookup ms v := by
  have hsep' : List.Pairwise
      (fun a b : Day5Part1.Range1 => a.start + a.length ≤ b.start)
      (ms.map Day5Part1.toRange1) := by
    rw [List.pairwise_map]
    exact hsep
  have hpos' : ∀ e ∈ ms.map Day5Part1.toRange1, 0 < e.length := by
    intro e he
    obtain ⟨m, hm, rfl⟩ := List.mem_map.mp he
    exact hpos m hm
  have hv' : ∀ e ∈ ms.map Day5Part1.toRange1, v ≠ e.start + e.length := by
    intro e he
    obtain ⟨m, hm, rfl⟩ := List.mem_map.mp he
    exact hv m hm
  have h := Day5Part1.search_range_eq_find v (ms.map Day5Part1.toRange1) hsep' hpos' hv'
  unfold Day5Part1.convert_value pointLookup
  rw [h, List.find?_map]
  have hpred : ((fun e : Day5Part1.Range1 => decide (e.start ≤ v) &&
      decide (v < e.start + e.length)) ∘ Day5Part1.toRange1) =
      (fun m : RangeMapping => decide (m.range.start ≤ v) &&
        decide (v < m.range.start + m.range.length)) := by
    funext m
    rfl
  rw [hpred]
  cases hf : ms.find? (fun m => decide (m.range.start ≤ v) &&
      decide (v < m.range.start + m.range.length)) with
  | none => rfl
  | some m => rfl

/-! ## Claim C6: single-range lookup consistency -/

/-- C6 counterexample: at the boundary value v = 10 (the exclusive end of the
entry `[0,10) -> 100`), `map_range` on the singleton `[10,11)` does not yield
a single one-length output: it yields the passthrough `[10,11)` plus a
zero-length artifact at 110, while the scalar lookup of part1 (whose bound
check `value <= from + length` is inclusive) translates 10 to 110. -/
theorem singleton_lookup_cex :
    sortedBySource [⟨⟨0, 10⟩, 100⟩] = true ∧
    pairwiseDisjoint [⟨⟨0, 10⟩, 100⟩] = true ∧
    map_range [⟨⟨0, 10⟩, 100⟩] ⟨10, 1⟩ = [⟨10, 1⟩, ⟨110, 0⟩] ∧
    Day5Part1.convert_value [⟨0, 10, 100⟩] 10 = 110 := by
  decide

/-- C6 amended: for a sorted, non-overlapping table of non-degenerate entries
and any scalar v that is not the exclusive end of an entry, the positive-length
outputs of `map_range` on the singleton `[v,v+1)` form exactly one one-length
range whose start is the scalar point-translation `convert_value` computes on
the same table (zero-length artifacts may accompany it in the raw output; at
an entry's exclusive end the two variants disagree, as the counterexample
shows). -/
theorem map_range_singleton_consistency (ms : List RangeMapping) (v : Nat)
    (hs : sortedBySource ms = true) (hd : pairwiseDisjoint ms = true)
    (hpos : ∀ m ∈ ms, 0 < m.range.length)
    (hv : ∀ m ∈ ms, v ≠ m.range.start + m.range.length) :
    (map_range ms ⟨v, 1⟩).filter (fun r => decide (0 < r.length)) =
      [⟨Day5Part1.convert_value (ms.map Day5Part1.toRange1) v, 1⟩] := by
  have hsep := sep_of_sorted_disjoint ms hs hd hpos
  have hperm := (sortRanges_perm (mapRangeGo ms ⟨v, 1⟩)).filter
    (fun r => decide (0 < r.length))
  rw [mapRangeGo_singleton v ms hsep] at hperm
  have hsing := List.perm_singleton.mp hperm
  unfold map_range
  rw [hsing, convert_value_pointLookup ms v hsep hpos hv]

/-- Witness for the amended C6 with table `[10,20) -> 100` and v = 12. -/
theorem map_range_singleton_consistency_witness :
    (map_range [⟨⟨10, 10⟩, 100⟩] ⟨12, 1⟩).filter (fun r => decide (0 < r.length)) =
      [⟨Day5Part1.convert_value ([⟨⟨10, 10⟩, 100⟩].map Day5Part1.toRange1) 12, 1⟩] :=
  map_range_singleton_consistency [⟨⟨10, 10⟩, 100⟩] 12
    (by decide) (by decide) (by decide) (by decide)

end Day5
